import Mathlib

/-!
Verification of the `lattice` flow-network library.

The development shallowly embeds the parts of the library that the claims
touch: the node-name normalizer (`System.format_node_names`), the layer
processors and linker (`process_outlet_layer`, `process_middle_layer`,
`validate_inflow_layer`, `link_layers`, `link_diagram`), the passive
reservoir policy (`passive_operation`), the runtime node graph with its
pull-based `send`/`receive` evaluation, and the `Log.records_by_label`
lookup.  Numeric flow values are modelled by rationals; Python strings are
Lean strings and the f-string `f'{name}_{i}'` is string append of the
decimal representation of `i`.
-/

namespace Lattice

/-! ### Decimal numerals

`Nat.repr` is exactly what Python's `f'{i}'` produces for a natural number.
We prove the two facts about decimal strings that the name normalizer
needs: the representation contains no underscore, and it is injective.
-/

/-- The string Python's `f'{i}'` produces for a natural `i`. -/
def natStr (n : Nat) : String := Nat.repr n

/-- `f'{b}_{k}'`: the suffixed name the normalizer generates. -/
def suffixName (b : String) (k : Nat) : String := b ++ "_" ++ natStr k

/-- Numeric value of a decimal digit character. -/
def digitVal (c : Char) : Nat := c.toNat - 48

/-- Read a digit string back into a number (left fold over the digits). -/
def parseDigits (l : List Char) : Nat := l.foldl (fun v c => v * 10 + digitVal c) 0

/-! ### The identifier normalizer (`System.format_node_names`)

The method walks the flattened diagram twice.  First pass: each node whose
current name is already taken searches `base_2, base_3, ...` for a free
name (recording the base in `dupes` once per colliding node); the chosen
name is appended to the list of taken names.  Second pass: for each
recorded duplicate base, every node currently carrying exactly that name
is renamed to `base_1`.  The Python `while` loop always terminates because
the taken-name list is finite; `findFree` makes that explicit with a fuel
argument that is never exhausted on reachable states.
-/

/-- The `while name in names` search of `format_node_names`, starting at
suffix `i` (the source starts at 2). -/
def findFree (names : List String) (b : String) : Nat → Nat → String
  | 0, i => suffixName b i
  | fuel + 1, i =>
    if suffixName b i ∈ names then findFree names b fuel (i + 1) else suffixName b i

/-- First-pass state: names assigned so far and duplicated bases found. -/
structure P1St where
  assigned : List String
  dupes : List String

/-- One first-pass iteration of `format_node_names` (one node). -/
def pass1Step (st : P1St) (b : String) : P1St :=
  if b ∈ st.assigned then
    { assigned := st.assigned ++ [findFree st.assigned b (st.assigned.length + 1) 2],
      dupes := st.dupes ++ [b] }
  else
    { assigned := st.assigned ++ [b], dupes := st.dupes }

/-- One second-pass iteration: rename every node whose current name equals
the duplicated base `d` to `d_1`. -/
def pass2Step (ns : List String) (d : String) : List String :=
  ns.map (fun x => if x = d then d ++ "_1" else x)

/-- `System.format_node_names`, acting on the flattened list of node
names (the method reads and writes only the `name` field of each node,
in flattened construction order). -/
def format_node_names (names : List String) : List String :=
  let st := names.foldl pass1Step ⟨[], []⟩
  st.dupes.foldl pass2Step st.assigned

/-- Sequential application of the second-pass renamings to one name. -/
def renameAll : List String → String → String
  | [], x => x
  | d :: rest, x => renameAll rest (if x = d then d ++ "_1" else x)

/-- 1-indexed occurrence number of the name at position `p` among the
equal names before it. -/
def occIdx (names : List String) (p : Nat) : Nat :=
  (names.take p).count (names.getD p "") + 1

/-- The name the first pass assigns to position `p`. -/
def assignedName (names : List String) (p : Nat) : String :=
  if occIdx names p = 1 then names.getD p ""
  else suffixName (names.getD p "") (occIdx names p)

/-- All first-pass results, in order. -/
def assignedAll (names : List String) : List String :=
  (List.range names.length).map (assignedName names)

/-- The duplicated bases recorded by the first pass, in order (one entry
per colliding node). -/
def dupeList (names : List String) : List String :=
  (List.range names.length).filterMap (fun p =>
    if occIdx names p = 1 then none else some (names.getD p ""))

/-- The net effect the specification claims: the k-th occurrence
(1-indexed, in flattened order) of a repeated base name becomes `base_k`;
a name occurring exactly once is untouched. -/
def spec_rename (names : List String) : List String :=
  (List.range names.length).map (fun p =>
    if names.count (names.getD p "") = 1 then names.getD p ""
    else suffixName (names.getD p "") (occIdx names p))

/-- No original name already carries a numeric suffix over another
original name (e.g. `x` together with `x_1` or `x_2` is forbidden). -/
def NoSuffixCollision (names : List String) : Prop :=
  ∀ a ∈ names, ∀ b ∈ names, ∀ k, 1 ≤ k → a ≠ suffixName b k

/-! ### The diagram model (`system.py`)

A description is a list of layers; a layer is a list of elements, each a
single node or a group (Python list) of nodes.  Only the tag and the name
of a node matter to layer processing and name normalization, so diagram
nodes carry exactly those.  Raised Python exceptions are modelled by
`Except`: `ValueError` as `.structural`/`.rangeError`, the
`AttributeError` that `layer[0].tag` raises on a group as `.attrError`,
and the `IndexError` of `diagram[-1]` on an empty diagram as
`.indexError`.  `link_layers` additionally mutates sender sets in place;
sender wiring has no effect on validation or on node names, and the
runtime sender structure is modelled separately below (`PNode`).
-/

inductive NTag where
  | inflow
  | storage
  | diversion
  | rescale
  | performance
  | outlet
deriving DecidableEq

structure DNode where
  tag : NTag
  name : String
deriving DecidableEq

inductive Elem where
  | node (nd : DNode)
  | group (g : List DNode)
deriving DecidableEq

abbrev Layer := List Elem

abbrev Diagram := List Layer

def dfltNode : DNode := ⟨NTag.inflow, ""⟩

inductive DiagErr where
  | structural
  | attrError
  | rangeError
  | indexError
deriving DecidableEq

/-- `flatten_layer`: groups are spliced in place.  (The Python function
also rejects elements that are neither nodes nor lists of nodes; those
are unrepresentable in the typed layer.) -/
def flatten_layer : Layer → List DNode
  | [] => []
  | Elem.node nd :: rest => nd :: flatten_layer rest
  | Elem.group g :: rest => g ++ flatten_layer rest

/-- `flatten_diagram`. -/
def flatten_diagram : Diagram → List DNode
  | [] => []
  | layer :: rest => flatten_layer layer ++ flatten_diagram rest

/-- The node names of a diagram in flattened construction order. -/
def diagram_names (d : Diagram) : List String := (flatten_diagram d).map DNode.name

/-- `process_outlet_layer`: the first layer must be a one-element list
holding a single ungrouped outlet node; on success the connections are
`[(0, 0)]`.  A group raises `AttributeError` (`layer[0].tag` on a list). -/
def process_outlet_layer : Layer → Except DiagErr (List (Nat × Nat))
  | [Elem.node nd] =>
    if nd.tag = NTag.outlet then .ok [(0, 0)] else .error .structural
  | [Elem.group _] => .error .attrError
  | _ => .error .structural

/-- The `process_node` closure of `process_middle_layer`: state is
`(n, i, cxns)` with `n` nodes seen, `i` inflow nodes seen. -/
def processNode (st : Nat × Nat × List (Nat × Nat)) (nd : DNode) :
    Except DiagErr (Nat × Nat × List (Nat × Nat)) :=
  match nd.tag with
  | NTag.outlet => .error .structural
  | NTag.inflow => .ok (st.1 + 1, st.2.1 + 1, st.2.2)
  | _ => .ok (st.1 + 1, st.2.1, st.2.2 ++ [(st.1, st.1 - st.2.1)])

/-- The inner `for node in element` loop of `process_middle_layer`. -/
def processNodes : List DNode → (Nat × Nat × List (Nat × Nat)) →
    Except DiagErr (Nat × Nat × List (Nat × Nat))
  | [], st => .ok st
  | nd :: rest, st =>
    match processNode st nd with
    | .error e => .error e
    | .ok st' => processNodes rest st'

/-- The outer `for element in layer` loop of `process_middle_layer`. -/
def processElems : Layer → (Nat × Nat × List (Nat × Nat)) →
    Except DiagErr (Nat × Nat × List (Nat × Nat))
  | [], st => .ok st
  | Elem.node nd :: rest, st =>
    match processNode st nd with
    | .error e => .error e
    | .ok st' => processElems rest st'
  | Elem.group g :: rest, st =>
    match processNodes g st with
    | .error e => .error e
    | .ok st' => processElems rest st'

/-- `process_middle_layer`. -/
def process_middle_layer (layer : Layer) : Except DiagErr (List (Nat × Nat)) :=
  match processElems layer (0, 0, []) with
  | .error e => .error e
  | .ok st => .ok st.2.2

/-- Count of inflow nodes in a list. -/
def inflowCount (nds : List DNode) : Nat :=
  nds.countP (fun nd => decide (nd.tag = NTag.inflow))

/-- The connection list `process_middle_layer` is claimed to return,
stated positionally: every non-inflow node at flattened position `p`
contributes `(p, p - i)` where `i` counts the inflow nodes before it. -/
def middle_cxns (nds : List DNode) : List (Nat × Nat) :=
  (List.range nds.length).filterMap (fun p =>
    if (nds.getD p dfltNode).tag = NTag.inflow then none
    else some (p, p - inflowCount (nds.take p)))

/-- `middle_cxns` with the running counters started at `n` and `i`
(the form the left-to-right scan of `process_middle_layer` produces from
an intermediate state). -/
def middle_cxns_from (n i : Nat) (nds : List DNode) : List (Nat × Nat) :=
  (List.range nds.length).filterMap (fun p =>
    if (nds.getD p dfltNode).tag = NTag.inflow then none
    else some (n + p, (n + p) - (i + inflowCount (nds.take p))))

/-- A valid three-layer chain whose middle node shares the outlet's name
and whose source name already carries the suffix `_1`. -/
def presuffixedDiagram : Diagram :=
  [[Elem.node ⟨NTag.outlet, "x"⟩], [Elem.node ⟨NTag.storage, "x"⟩],
    [Elem.node ⟨NTag.inflow, "x_1"⟩]]

/-- `link_layers`, restricted to its validation effect: each connection
is range-checked against the flattened downstream layer and the
unflattened upstream layer.  (On success the Python function also adds
the resolved upstream node, or every node of the resolved upstream
group, to the downstream node's sender set; the sender structure is
modelled by `PNode`/`add_sender` below.) -/
def link_layers (ds us : Layer) : List (Nat × Nat) → Except DiagErr Unit
  | [] => .ok ()
  | c :: rest =>
    if (flatten_layer ds).length ≤ c.1 then .error .rangeError
    else if us.length ≤ c.2 then .error .rangeError
    else link_layers ds us rest

/-- The per-node check of `validate_inflow_layer`. -/
def checkInflowNodes : List DNode → Except DiagErr Unit
  | [] => .ok ()
  | nd :: rest =>
    if nd.tag = NTag.inflow then checkInflowNodes rest else .error .structural

/-- `validate_inflow_layer`. -/
def validate_inflow_layer (layer : Layer) : Except DiagErr Unit :=
  checkInflowNodes (flatten_layer layer)

/-- The `for i in range(len(diagram)-1)` loop of `link_diagram`, with the
final-layer validation after it. -/
def linkGo : Bool → Diagram → Except DiagErr Unit
  | _, [] => .ok ()
  | _, [last] => validate_inflow_layer last
  | isFirst, l₁ :: l₂ :: rest =>
    match (if isFirst then process_outlet_layer l₁ else process_middle_layer l₁) with
    | .error e => .error e
    | .ok cxns =>
      match link_layers l₁ l₂ cxns with
      | .error e => .error e
      | .ok _ => linkGo false (l₂ :: rest)

/-- `link_diagram` (validation result; `diagram[-1]` on an empty diagram
raises `IndexError`). -/
def link_diagram (d : Diagram) : Except DiagErr Unit :=
  match d with
  | [] => .error .indexError
  | _ => linkGo true d

/-! ### The runtime node graph (`node.py`)

Runtime nodes form a tree: every non-source node holds its sender set,
populated by `add_sender` during linking.  Python's `set` stores one
representative per `__eq__`/`__hash__` class, so senders are modelled as
an insertion-ordered duplicate-free list with membership tested by
`nodeEq` (the `__eq__` of the corresponding class).  Flow values are
rationals.  A record is the tuple logged by a wrapped operate call; a
tuple field is either a number or a nested tuple of numbers
(`releases`).  Raised exceptions: `StopIteration` from an exhausted
source, `IndexError` from list indexing, `ValueError` from
`Log.records_by_label`.
-/

abbrev RVal := Sum ℚ (List ℚ)

inductive RunErr where
  | stopIteration
  | indexError
  | valueError
deriving DecidableEq

/-- Python list indexing `l[i]`, including negative indices. -/
def pyGet {α : Type} (l : List α) (i : Int) : Except RunErr α :=
  let j : Int := if i < 0 then (l.length : Int) + i else i
  if 0 ≤ j then
    match l.get? j.toNat with
    | some v => .ok v
    | none => .error .indexError
  else .error .indexError

mutual
inductive PNode where
  | inflow (name : String) (data : List ℚ) (opsName : String) (transform : ℚ → ℚ)
      (timestep : Int) (loop : Bool) (log : List (List RVal))
  | storage (name : String) (resName : String) (capacity : ℚ) (storageV : ℚ)
      (opsName : String) (resOp : ℚ → ℚ → ℚ → List ℚ × ℚ) (senders : PNodeList)
      (log : List (List RVal))
  | outlet (name : String) (opsName : String) (transform : ℚ → ℚ) (senders : PNodeList)
      (log : List (List RVal))
inductive PNodeList where
  | nil
  | cons (head : PNode) (tail : PNodeList)
end

/-- `Inflow.__next__`: advance the cursor, restarting (loop) or raising
`StopIteration` at the end of the data. -/
def inflowNextCore (data : List ℚ) (ts : Int) (lp : Bool) : Except RunErr (ℚ × Int) :=
  if ts + 1 = (data.length : Int) then
    if lp then
      match pyGet data 0 with
      | .ok v => .ok (v, 0)
      | .error e => .error e
    else .error .stopIteration
  else
    match pyGet data (ts + 1) with
    | .ok v => .ok (v, ts + 1)
    | .error e => .error e

/-- Python's `sum` over the releases tuple. -/
def relsSum (l : List ℚ) : ℚ := l.foldl (· + ·) 0

mutual
/-- `send` of each node class, with the always-attached log of the
simulation engine (one record appended per operate call).  The updated
node is returned in place of Python's in-place mutation. -/
def send : PNode → Except RunErr (ℚ × PNode)
  | PNode.inflow nm data ops tf ts lp lg =>
    match inflowNextCore data ts lp with
    | .error e => .error e
    | .ok (v, ts') =>
      .ok (tf v, PNode.inflow nm data ops tf ts' lp (lg ++ [[Sum.inl v, Sum.inl (tf v)]]))
  | PNode.storage nm rn cap sv ops rop snd lg =>
    match sendList snd with
    | .error e => .error e
    | .ok (q, snd') =>
      .ok (relsSum (rop sv cap q).1,
        PNode.storage nm rn cap (rop sv cap q).2 ops rop snd'
          (lg ++ [[Sum.inl q, Sum.inl (rop sv cap q).2, Sum.inr (rop sv cap q).1]]))
  | PNode.outlet nm ops tf snd lg =>
    match sendList snd with
    | .error e => .error e
    | .ok (q, snd') =>
      .ok (tf q, PNode.outlet nm ops tf snd' (lg ++ [[Sum.inl q, Sum.inl (tf q)]]))
/-- `sum(sender.send() for sender in self.senders())`. -/
def sendList : PNodeList → Except RunErr (ℚ × PNodeList)
  | PNodeList.nil => .ok (0, PNodeList.nil)
  | PNodeList.cons h t =>
    match send h with
    | .error e => .error e
    | .ok (v, h') =>
      match sendList t with
      | .error e => .error e
      | .ok (vs, t') => .ok (v + vs, PNodeList.cons h' t')
end

/-- `receive` of each node class: a source pulls the next data value,
storage and outlet nodes sum the sends of their senders. -/
def receiveNode : PNode → Except RunErr (ℚ × PNode)
  | PNode.inflow nm data ops tf ts lp lg =>
    match inflowNextCore data ts lp with
    | .error e => .error e
    | .ok (v, ts') => .ok (v, PNode.inflow nm data ops tf ts' lp lg)
  | PNode.storage nm rn cap sv ops rop snd lg =>
    match sendList snd with
    | .error e => .error e
    | .ok (q, snd') => .ok (q, PNode.storage nm rn cap sv ops rop snd' lg)
  | PNode.outlet nm ops tf snd lg =>
    match sendList snd with
    | .error e => .error e
    | .ok (q, snd') => .ok (q, PNode.outlet nm ops tf snd' lg)

/-- `System.simulation`: `time_steps` calls of `send` on the outlet. -/
def runSteps : Nat → PNode → Except RunErr PNode
  | 0, nd => .ok nd
  | t + 1, nd =>
    match send nd with
    | .error e => .error e
    | .ok (_, nd') => runSteps t nd'

/-- The `__eq__` methods: `isinstance` check, then comparison of the
static `__key` tuples.  `Inflow.__key` is `(tag, name, tuple(data),
type(operations))`; `Storage.__key` is `(tag, name, reservoir.name,
reservoir.capacity, type(reservoir.operations))`; `Outlet.__key` is
`(tag, name, type(operations))`.  Mutable runtime state (cursor, stored
volume, senders, logs) and the transform/operation closures themselves
are not part of any key. -/
def nodeEq : PNode → PNode → Bool
  | PNode.inflow n₁ d₁ o₁ _ _ _ _, PNode.inflow n₂ d₂ o₂ _ _ _ _ =>
    decide (n₁ = n₂ ∧ d₁ = d₂ ∧ o₁ = o₂)
  | PNode.storage n₁ r₁ c₁ _ o₁ _ _ _, PNode.storage n₂ r₂ c₂ _ o₂ _ _ _ =>
    decide (n₁ = n₂ ∧ r₁ = r₂ ∧ c₁ = c₂ ∧ o₁ = o₂)
  | PNode.outlet n₁ o₁ _ _ _, PNode.outlet n₂ o₂ _ _ _ =>
    decide (n₁ = n₂ ∧ o₁ = o₂)
  | _, _ => false

/-- Membership in a sender set, via `__eq__`/`__hash__`. -/
def plContains : PNodeList → PNode → Bool
  | PNodeList.nil, _ => false
  | PNodeList.cons h t, n => nodeEq h n || plContains t n

def plSnoc : PNodeList → PNode → PNodeList
  | PNodeList.nil, n => PNodeList.cons n PNodeList.nil
  | PNodeList.cons h t, n => PNodeList.cons h (plSnoc t n)

/-- `add_sender`: `set.add` keeps the stored element when an equal one
is inserted. -/
def add_sender (l : PNodeList) (n : PNode) : PNodeList :=
  if plContains l n then l else plSnoc l n

/-! ### The passive reservoir policy (`reservoir.py`) -/

structure Res where
  storage : ℚ
  capacity : ℚ
deriving DecidableEq

/-- `passive_operation` of `src/lattice/reservoir.py`: spill everything
above capacity, store the rest; the in-place storage mutation is the
returned `Res`. -/
def passive_operation (r : Res) (inflow : ℚ) : (ℚ × ℚ × List ℚ) × Res :=
  let release := max 0 (r.storage + inflow - r.capacity)
  let storage2 := min r.capacity (r.storage + inflow)
  ((inflow, storage2, [release]), { r with storage := storage2 })

/-- Modelled from the spec: the repository's `Storage` nodes delegate to
the external `canteen` library's `BasicReservoir`, whose default
operation the specification (section 6) gives as
`release = max(0, storage + inflow - capacity)`,
`storage' = min(capacity, storage + inflow)`, with the single release
returned as a one-element tuple — the same formulas as the repository's
own `passive_operation` above. -/
def passiveResOp (sv cap q : ℚ) : List ℚ × ℚ :=
  ([max 0 (sv + q - cap)], min cap (sv + q))

/-! ### The three-node chain of the simulation claim -/

def simpleInflow : PNode :=
  PNode.inflow "inflow" [1, 1, 0] "Transfer" id (-1) false []

def simpleStorage : PNode :=
  PNode.storage "storage" "basic" 1 0 "Operations" passiveResOp
    (PNodeList.cons simpleInflow PNodeList.nil) []

def simpleChain : PNode :=
  PNode.outlet "outlet" "Transfer" id (PNodeList.cons simpleStorage PNodeList.nil) []

def nodeRecords : PNode → List (List RVal)
  | PNode.inflow _ _ _ _ _ _ lg => lg
  | PNode.storage _ _ _ _ _ _ _ lg => lg
  | PNode.outlet _ _ _ _ lg => lg

def sendersOf : PNode → PNodeList
  | PNode.inflow _ _ _ _ _ _ _ => PNodeList.nil
  | PNode.storage _ _ _ _ _ _ snd _ => snd
  | PNode.outlet _ _ _ snd _ => snd

def plHeadRecords : PNodeList → List (List RVal)
  | PNodeList.nil => []
  | PNodeList.cons h _ => nodeRecords h

/-- `records_by_label('outflow')` on a log: the last positional field of
every record. -/
def outflowColumn (lg : List (List RVal)) : List RVal :=
  lg.map (fun r => r.getLastD (Sum.inl 0))

/-! ### The log (`node.py`, class `Log`) -/

/-- A log header entry: Python stores strings and, for storage nodes,
one nested tuple of release labels. -/
abbrev Header := Sum String (List String)

structure Log where
  headers : List Header
  records : List (List RVal)

/-- `self.headers.index(label)`: first exact (string) match. -/
def strIndexOf : List Header → String → Option Nat
  | [], _ => none
  | Sum.inl s :: rest, label =>
    if s = label then some 0 else (strIndexOf rest label).map (· + 1)
  | Sum.inr _ :: rest, label => (strIndexOf rest label).map (· + 1)

/-- The tuple-header fallback loop: the first tuple header containing the
label, returning the label's position inside that tuple. -/
def tupleLookup : List Header → String → Option Nat
  | [], _ => none
  | Sum.inl _ :: rest, label => tupleLookup rest label
  | Sum.inr tup :: rest, label =>
    if label ∈ tup then some (tup.indexOf label) else tupleLookup rest label

/-- `[record[i] for record in self.records]`. -/
def mapRecords : List (List RVal) → Int → Except RunErr (List RVal)
  | [], _ => .ok []
  | r :: rest, i =>
    match pyGet r i with
    | .error e => .error e
    | .ok v =>
      match mapRecords rest i with
      | .error e => .error e
      | .ok vs => .ok (v :: vs)

/-- `Log.records_by_label`. -/
def records_by_label (L : Log) (label : String) : Except RunErr (List RVal) :=
  match strIndexOf L.headers label with
  | some i => mapRecords L.records (Int.ofNat i)
  | none =>
    if label = "outflow" then mapRecords L.records (-1)
    else if label = "inflow" then mapRecords L.records 0
    else
      match tupleLookup L.headers label with
      | some i => mapRecords L.records (Int.ofNat i)
      | none => .error .valueError

theorem digitChar_ne_underscore (n : Nat) : Nat.digitChar n ≠ '_' := by
  match n with
  | 0 | 1 | 2 | 3 | 4 | 5 | 6 | 7 | 8 | 9 | 10 | 11 | 12 | 13 | 14 | 15 => decide
  | n + 16 =>
    unfold Nat.digitChar
    repeat rw [if_neg (by omega)]
    decide

theorem digitVal_digitChar {d : Nat} (h : d < 10) : digitVal (Nat.digitChar d) = d := by
  interval_cases d <;> decide

theorem toDigitsCore_append (b : Nat) :
    ∀ (fuel n : Nat) (acc : List Char),
      Nat.toDigitsCore b fuel n acc = Nat.toDigitsCore b fuel n [] ++ acc := by
  intro fuel
  induction fuel with
  | zero => intro n acc; simp [Nat.toDigitsCore]
  | succ fuel ih =>
    intro n acc
    simp only [Nat.toDigitsCore]
    split
    · simp
    · rw [ih (n / b) (Nat.digitChar (n % b) :: acc), ih (n / b) [Nat.digitChar (n % b)]]
      simp

theorem mem_toDigitsCore (b : Nat) :
    ∀ (fuel n : Nat) (acc : List Char) (c : Char),
      c ∈ Nat.toDigitsCore b fuel n acc → c ∈ acc ∨ ∃ m, c = Nat.digitChar m := by
  intro fuel
  induction fuel with
  | zero => intro n acc c hc; exact Or.inl hc
  | succ fuel ih =>
    intro n acc c hc
    simp only [Nat.toDigitsCore] at hc
    split at hc
    · rcases List.mem_cons.mp hc with h | h
      · exact Or.inr ⟨n % b, h⟩
      · exact Or.inl h
    · rcases ih (n / b) (Nat.digitChar (n % b) :: acc) c hc with h | h
      · rcases List.mem_cons.mp h with h' | h'
        · exact Or.inr ⟨n % b, h'⟩
        · exact Or.inl h'
      · exact Or.inr h

theorem underscore_not_mem_natStr (n : Nat) : '_' ∉ (natStr n).data := by
  intro hmem
  have hdata : (natStr n).data = Nat.toDigitsCore 10 (n + 1) n [] := rfl
  rw [hdata] at hmem
  rcases mem_toDigitsCore 10 (n + 1) n [] '_' hmem with h | ⟨m, h⟩
  · exact List.not_mem_nil _ h
  · exact digitChar_ne_underscore m h.symm

theorem parseDigits_toDigitsCore :
    ∀ (fuel n : Nat), n < fuel → parseDigits (Nat.toDigitsCore 10 fuel n []) = n := by
  intro fuel
  induction fuel with
  | zero => intro n h; omega
  | succ fuel ih =>
    intro n h
    simp only [Nat.toDigitsCore]
    split
    · have hdiv : n / 10 = 0 := by assumption
      have hlt : n % 10 = n := by omega
      have h10 : n < 10 := by omega
      simp [parseDigits, hlt, digitVal_digitChar h10]
    · rw [toDigitsCore_append]
      have hmod : 10 * (n / 10) + n % 10 = n := Nat.div_add_mod n 10
      have hmodlt : n % 10 < 10 := Nat.mod_lt _ (by omega)
      have hne : n / 10 ≠ 0 := by assumption
      have hih : parseDigits (Nat.toDigitsCore 10 fuel (n / 10) []) = n / 10 :=
        ih (n / 10) (by omega)
      simp only [parseDigits] at hih ⊢
      rw [List.foldl_append, hih]
      simp [digitVal_digitChar hmodlt]
      omega

theorem parseDigits_natStr (n : Nat) : parseDigits (natStr n).data = n := by
  have hdata : (natStr n).data = Nat.toDigitsCore 10 (n + 1) n [] := rfl
  rw [hdata]
  exact parseDigits_toDigitsCore (n + 1) n (Nat.lt_succ_self n)

theorem natStr_injective {m n : Nat} (h : natStr m = natStr n) : m = n := by
  have := parseDigits_natStr m
  rw [h, parseDigits_natStr n] at this
  exact this.symm

/-- Splitting a character list at its last underscore is unique when the
tails carry no underscore. -/
theorem append_underscore_cancel :
    ∀ (as bs s t : List Char), '_' ∉ s → '_' ∉ t →
      as ++ '_' :: s = bs ++ '_' :: t → as = bs ∧ s = t := by
  intro as
  induction as with
  | nil =>
    intro bs s t hs ht h
    cases bs with
    | nil => simpa using h
    | cons b bs =>
      simp only [List.nil_append, List.cons_append, List.cons.injEq] at h
      exact absurd (h.2 ▸ List.mem_append_right bs (List.mem_cons_self '_' t)) hs
  | cons a as ih =>
    intro bs s t hs ht h
    cases bs with
    | nil =>
      simp only [List.nil_append, List.cons_append, List.cons.injEq] at h
      exact absurd (h.2.symm ▸ List.mem_append_right as (List.mem_cons_self '_' s)) ht
    | cons b bs =>
      simp only [List.cons_append, List.cons.injEq] at h
      obtain ⟨hab, hrest⟩ := h
      obtain ⟨h1, h2⟩ := ih bs s t hs ht hrest
      exact ⟨by rw [hab, h1], h2⟩

theorem suffixName_data (b : String) (k : Nat) :
    (suffixName b k).data = b.data ++ '_' :: (natStr k).data := by
  simp [suffixName]

theorem suffixName_injective {a b : String} {j k : Nat}
    (h : suffixName a j = suffixName b k) : a = b ∧ j = k := by
  have hdata : a.data ++ '_' :: (natStr j).data = b.data ++ '_' :: (natStr k).data := by
    rw [← suffixName_data, ← suffixName_data, h]
  obtain ⟨h1, h2⟩ := append_underscore_cancel a.data b.data (natStr j).data (natStr k).data
    (underscore_not_mem_natStr j) (underscore_not_mem_natStr k) hdata
  exact ⟨String.ext h1, natStr_injective (String.ext h2)⟩

theorem self_ne_suffixName (b : String) (k : Nat) : b ≠ suffixName b k := by
  intro h
  have hlen := congrArg String.length h
  rw [suffixName, String.length_append, String.length_append] at hlen
  have h1 : ("_" : String).length = 1 := rfl
  rw [h1] at hlen
  omega

theorem suffixName_one (b : String) : suffixName b 1 = b ++ "_1" := by
  apply String.ext
  rw [suffixName_data]
  have h1 : (natStr 1).data = ['1'] := rfl
  have h2 : ("_1" : String).data = ['_', '1'] := rfl
  simp [h1, h2]

theorem filterMap_congr_mem {α β : Type} (l : List α) (f g : α → Option β)
    (h : ∀ a ∈ l, f a = g a) : l.filterMap f = l.filterMap g := by
  induction l with
  | nil => rfl
  | cons a l ih =>
    rw [List.filterMap_cons, List.filterMap_cons, h a (List.mem_cons_self a l),
      ih (fun x hx => h x (List.mem_cons_of_mem _ hx))]

theorem assignedAll_length (l : List String) : (assignedAll l).length = l.length := by
  simp [assignedAll]

theorem occIdx_append_lt (l : List String) (b : String) (p : Nat) (hp : p < l.length) :
    occIdx (l ++ [b]) p = occIdx l p := by
  unfold occIdx
  rw [List.getD_append _ _ _ _ hp, List.take_append_of_le_length (le_of_lt hp)]

theorem occIdx_append_self (l : List String) (b : String) :
    occIdx (l ++ [b]) l.length = l.count b + 1 := by
  unfold occIdx
  rw [List.getD_append_right _ _ _ _ (le_refl _), Nat.sub_self]
  rw [List.take_left]
  rfl

theorem getD_append_self (l : List String) (b : String) :
    (l ++ [b]).getD l.length "" = b := by
  rw [List.getD_append_right _ _ _ _ (le_refl _), Nat.sub_self]
  rfl

theorem assignedName_append_lt (l : List String) (b : String) (p : Nat)
    (hp : p < l.length) : assignedName (l ++ [b]) p = assignedName l p := by
  unfold assignedName
  rw [occIdx_append_lt _ _ _ hp, List.getD_append _ _ _ _ hp]

theorem assignedAll_append (l : List String) (b : String) :
    assignedAll (l ++ [b]) = assignedAll l ++ [assignedName (l ++ [b]) l.length] := by
  unfold assignedAll
  rw [show (l ++ [b]).length = l.length + 1 by simp, List.range_succ, List.map_append]
  congr 1
  apply List.map_congr_left
  intro p hp
  rw [List.mem_range] at hp
  exact assignedName_append_lt _ _ _ hp

theorem dupeList_append (l : List String) (b : String) :
    dupeList (l ++ [b]) = dupeList l ++ (if b ∈ l then [b] else []) := by
  unfold dupeList
  rw [show (l ++ [b]).length = l.length + 1 by simp, List.range_succ, List.filterMap_append]
  congr 1
  · apply filterMap_congr_mem
    intro p hp
    rw [List.mem_range] at hp
    rw [occIdx_append_lt _ _ _ hp, List.getD_append _ _ _ _ hp]
  · rw [List.filterMap_cons, List.filterMap_nil]
    rw [occIdx_append_self, getD_append_self]
    by_cases hmem : b ∈ l
    · have hc : 0 < l.count b := List.count_pos_iff.mpr hmem
      rw [if_neg (by omega), if_pos hmem]
    · have hc : l.count b = 0 := List.count_eq_zero.mpr hmem
      rw [if_pos (by omega), if_neg hmem]

theorem exists_occ (b : String) :
    ∀ (l : List String) (j : Nat), j + 1 ≤ l.count b →
      ∃ p, p < l.length ∧ l.getD p "" = b ∧ (l.take p).count b = j := by
  intro l
  induction l with
  | nil => intro j hj; simp at hj
  | cons a l ih =>
    intro j hj
    by_cases hab : a = b
    · subst hab
      cases j with
      | zero => exact ⟨0, by simp, by simp [List.getD_cons_zero], by simp⟩
      | succ j2 =>
        have hj2 : j2 + 1 ≤ l.count a := by
          rw [List.count_cons_self] at hj
          omega
        obtain ⟨p, hp, hgd, hcnt⟩ := ih j2 hj2
        refine ⟨p + 1, by simpa using Nat.succ_lt_succ hp, by simpa using hgd, ?_⟩
        rw [List.take_succ_cons, List.count_cons_self, hcnt]
    · have hcnt : (a :: l).count b = l.count b := by
        rw [List.count_cons_of_ne (fun hc => hab hc.symm)]
      rw [hcnt] at hj
      obtain ⟨p, hp, hgd, hc⟩ := ih j hj
      refine ⟨p + 1, by simpa using Nat.succ_lt_succ hp, by simpa using hgd, ?_⟩
      rw [List.take_succ_cons, List.count_cons_of_ne (fun hc2 => hab hc2.symm), hc]

theorem count_take_lt (l : List String) (b : String) (p : Nat) (hp : p < l.length)
    (hgd : l.getD p "" = b) : (l.take p).count b < l.count b := by
  have hdrop : l.drop p = b :: l.drop (p + 1) := by
    rw [← hgd, List.getD_eq_getElem _ _ hp]
    exact List.drop_eq_getElem_cons hp
  have hc : l.count b = (l.take p).count b + (l.drop p).count b := by
    conv_lhs => rw [← List.take_append_drop p l]
    rw [List.count_append]
  rw [hc, hdrop, List.count_cons_self]
  omega

theorem getD_mem_of_lt (l : List String) (p : Nat) (hp : p < l.length) :
    l.getD p "" ∈ l := by
  rw [List.getD_eq_getElem _ _ hp]
  exact List.getElem_mem hp

theorem occIdx_le (l : List String) (p : Nat) (hp : p < l.length) :
    occIdx l p ≤ l.count (l.getD p "") := by
  unfold occIdx
  have := count_take_lt l (l.getD p "") p hp rfl
  omega

theorem mem_assignedAll_iff (l : List String) (x : String) :
    x ∈ assignedAll l ↔ ∃ p, p < l.length ∧ assignedName l p = x := by
  simp [assignedAll, List.mem_map, List.mem_range]

/-- Under `NoSuffixCollision`, an original name is among the first-pass
results exactly when it occurs in the processed prefix. -/
theorem mem_assigned_iff_mem (names l : List String) (b : String)
    (h : NoSuffixCollision names) (hpre : ∀ x ∈ l, x ∈ names) (hb : b ∈ names) :
    b ∈ assignedAll l ↔ b ∈ l := by
  constructor
  · intro hmem
    obtain ⟨p, hp, hap⟩ := (mem_assignedAll_iff l b).mp hmem
    unfold assignedName at hap
    split at hap
    · rw [← hap]
      exact getD_mem_of_lt l p hp
    · exact absurd hap.symm
        (h b hb (l.getD p "") (hpre _ (getD_mem_of_lt l p hp)) (occIdx l p)
          (by unfold occIdx; omega))
  · intro hmem
    have hcnt : 0 + 1 ≤ l.count b := by
      have := List.count_pos_iff.mpr hmem
      omega
    obtain ⟨p, hp, hgd, hc⟩ := exists_occ b l 0 hcnt
    refine (mem_assignedAll_iff l b).mpr ⟨p, hp, ?_⟩
    unfold assignedName occIdx
    rw [hgd, hc]
    simp

/-- Under `NoSuffixCollision`, the candidate `b_j` is taken exactly for
the suffixes already generated for earlier occurrences of `b`. -/
theorem suffix_mem_assigned (l : List String) (b : String) (j : Nat)
    (h2 : 2 ≤ j) (hj : j ≤ l.count b) : suffixName b j ∈ assignedAll l := by
  obtain ⟨p, hp, hgd, hc⟩ := exists_occ b l (j - 1) (by omega)
  refine (mem_assignedAll_iff l _).mpr ⟨p, hp, ?_⟩
  unfold assignedName occIdx
  rw [hgd, hc, if_neg (by omega)]
  congr 1
  omega

theorem suffix_not_mem_assigned (names l : List String) (b : String)
    (h : NoSuffixCollision names) (hpre : ∀ x ∈ l, x ∈ names) (hb : b ∈ names) :
    suffixName b (l.count b + 1) ∉ assignedAll l := by
  intro hmem
  obtain ⟨p, hp, hap⟩ := (mem_assignedAll_iff l _).mp hmem
  unfold assignedName at hap
  split at hap
  · exact h (l.getD p "") (hpre _ (getD_mem_of_lt l p hp)) b hb (l.count b + 1)
      (by omega) hap
  · obtain ⟨hbase, hidx⟩ := suffixName_injective hap
    have hlt := count_take_lt l b p hp hbase
    unfold occIdx at hidx
    rw [hbase] at hidx
    omega

theorem findFree_spec (ns : List String) (b : String) :
    ∀ (t i fuel : Nat), t < fuel →
      (∀ j, i ≤ j → j < i + t → suffixName b j ∈ ns) →
      suffixName b (i + t) ∉ ns →
      findFree ns b fuel i = suffixName b (i + t) := by
  intro t
  induction t with
  | zero =>
    intro i fuel hf _ hfree
    match fuel, hf with
    | fuel + 1, _ =>
      rw [findFree, if_neg (by simpa using hfree)]
      simp
  | succ t ih =>
    intro i fuel hf htaken hfree
    match fuel, hf with
    | fuel + 1, hf =>
      rw [findFree, if_pos (htaken i (le_refl i) (by omega))]
      have := ih (i + 1) fuel (by omega)
        (fun j hj1 hj2 => htaken j (by omega) (by omega))
        (by rw [show i + 1 + t = i + (t + 1) by omega]; exact hfree)
      rw [this]
      congr 1
      omega

/-- Under `NoSuffixCollision` one first-pass step extends the assigned
names and duplicate bases exactly as `assignedAll`/`dupeList` predict. -/
theorem pass1Step_spec (names l : List String) (b : String)
    (h : NoSuffixCollision names) (hpre : ∀ x ∈ l, x ∈ names) (hb : b ∈ names) :
    pass1Step ⟨assignedAll l, dupeList l⟩ b = ⟨assignedAll (l ++ [b]), dupeList (l ++ [b])⟩ := by
  unfold pass1Step
  by_cases hmem : b ∈ l
  · rw [if_pos (by simpa using (mem_assigned_iff_mem names l b h hpre hb).mpr hmem)]
    have hcnt : 0 < l.count b := List.count_pos_iff.mpr hmem
    have hfree : findFree (assignedAll l) b ((assignedAll l).length + 1) 2 =
        suffixName b (l.count b + 1) := by
      have happ := findFree_spec (assignedAll l) b (l.count b - 1) 2
        ((assignedAll l).length + 1)
        (by rw [assignedAll_length]; have := List.count_le_length b l; omega)
        (fun j hj1 hj2 => suffix_mem_assigned l b j hj1 (by omega))
        (by rw [show 2 + (l.count b - 1) = l.count b + 1 by omega]
            exact suffix_not_mem_assigned names l b h hpre hb)
      rw [happ]
      congr 1
      omega
    rw [hfree]
    rw [assignedAll_append, dupeList_append, if_pos hmem]
    have hname : assignedName (l ++ [b]) l.length = suffixName b (l.count b + 1) := by
      unfold assignedName
      rw [occIdx_append_self, getD_append_self, if_neg (by omega)]
    rw [hname]
  · rw [if_neg (by simpa using fun hc => hmem ((mem_assigned_iff_mem names l b h hpre hb).mp hc))]
    rw [assignedAll_append, dupeList_append, if_neg hmem, List.append_nil]
    have hname : assignedName (l ++ [b]) l.length = b := by
      unfold assignedName
      rw [occIdx_append_self, getD_append_self,
        if_pos (by rw [List.count_eq_zero.mpr hmem]), ]
    rw [hname]

theorem pass1_foldl (names : List String) (h : NoSuffixCollision names) :
    ∀ (rest l : List String), names = l ++ rest →
      rest.foldl pass1Step ⟨assignedAll l, dupeList l⟩ = ⟨assignedAll names, dupeList names⟩ := by
  intro rest
  induction rest with
  | nil =>
    intro l hsplit
    rw [List.append_nil] at hsplit
    subst hsplit
    rfl
  | cons b rest ih =>
    intro l hsplit
    have hpre : ∀ x ∈ l, x ∈ names := fun x hx => by
      rw [hsplit]; exact List.mem_append_left _ hx
    have hb : b ∈ names := by
      rw [hsplit]; exact List.mem_append_right _ (List.mem_cons_self _ _)
    rw [List.foldl_cons, pass1Step_spec names l b h hpre hb]
    exact ih (l ++ [b]) (by rw [hsplit, List.append_assoc]; rfl)

theorem pass1_eq (names : List String) (h : NoSuffixCollision names) :
    names.foldl pass1Step ⟨[], []⟩ = ⟨assignedAll names, dupeList names⟩ := by
  have := pass1_foldl names h names [] rfl
  simpa [assignedAll, dupeList] using this

theorem foldl_pass2_eq_map (D : List String) :
    ∀ A : List String, D.foldl pass2Step A = A.map (renameAll D) := by
  induction D with
  | nil =>
    intro A
    have hid : A.map (renameAll []) = A.map id := by
      apply List.map_congr_left
      intro x _
      rfl
    simp [hid]
  | cons d D ih =>
    intro A
    rw [List.foldl_cons]
    show D.foldl pass2Step (pass2Step A d) = _
    rw [ih (pass2Step A d)]
    unfold pass2Step
    rw [List.map_map]
    apply List.map_congr_left
    intro x _
    rfl

theorem renameAll_of_not_mem : ∀ (D : List String) (x : String), x ∉ D → renameAll D x = x := by
  intro D
  induction D with
  | nil => intro x _; rfl
  | cons d D ih =>
    intro x hx
    rw [renameAll, if_neg (fun hc => hx (by rw [hc]; exact List.mem_cons_self d D))]
    exact ih x (fun hc => hx (List.mem_cons_of_mem _ hc))

theorem renameAll_of_mem : ∀ (D : List String) (x : String),
    (∀ d ∈ D, ∀ e ∈ D, e ≠ d ++ "_1") → x ∈ D → renameAll D x = x ++ "_1" := by
  intro D
  induction D with
  | nil => intro x _ hx; cases hx
  | cons d D ih =>
    intro x hni hx
    by_cases hxd : x = d
    · subst hxd
      rw [renameAll, if_pos rfl]
      refine renameAll_of_not_mem D (x ++ "_1") (fun hc => ?_)
      exact hni x (List.mem_cons_self x D) (x ++ "_1") (List.mem_cons_of_mem _ hc) rfl
    · rw [renameAll, if_neg hxd]
      rcases List.mem_cons.mp hx with hc | hc
      · exact absurd hc hxd
      · exact ih x
          (fun a ha e he => hni a (List.mem_cons_of_mem _ ha) e (List.mem_cons_of_mem _ he))
          hc

theorem mem_dupeList_iff (names : List String) (x : String) :
    x ∈ dupeList names ↔ x ∈ names ∧ 2 ≤ names.count x := by
  constructor
  · intro hmem
    unfold dupeList at hmem
    rw [List.mem_filterMap] at hmem
    obtain ⟨p, hp, hval⟩ := hmem
    rw [List.mem_range] at hp
    split at hval
    · cases hval
    · have hx : names.getD p "" = x := by
        injection hval with hval2
      have hocc : ¬ occIdx names p = 1 := by assumption
      have hmem2 : x ∈ names := hx ▸ getD_mem_of_lt names p hp
      refine ⟨hmem2, ?_⟩
      have hlt := count_take_lt names x p hp hx
      unfold occIdx at hocc
      rw [hx] at hocc
      omega
  · rintro ⟨hmem, hcnt⟩
    obtain ⟨p, hp, hgd, hc⟩ := exists_occ x names 1 hcnt
    unfold dupeList
    rw [List.mem_filterMap]
    refine ⟨p, List.mem_range.mpr hp, ?_⟩
    rw [if_neg (by unfold occIdx; rw [hgd, hc]; omega)]
    rw [hgd]

/-- C2 (amended): when no original name already carries a numeric suffix
over another original name, `format_node_names` realizes exactly the
claimed net effect (`spec_rename`): the k-th occurrence of a repeated
base becomes `base_k` and singletons are untouched. -/
theorem format_node_names_spec (names : List String) (h : NoSuffixCollision names) :
    format_node_names names = spec_rename names := by
  show (names.foldl pass1Step ⟨[], []⟩).dupes.foldl pass2Step
      (names.foldl pass1Step ⟨[], []⟩).assigned = spec_rename names
  rw [pass1_eq names h]
  rw [foldl_pass2_eq_map]
  unfold assignedAll spec_rename
  rw [List.map_map]
  apply List.map_congr_left
  intro p hp
  rw [List.mem_range] at hp
  have hgd : names.getD p "" ∈ names := getD_mem_of_lt names p hp
  have hni : ∀ d ∈ dupeList names, ∀ e ∈ dupeList names, e ≠ d ++ "_1" := by
    intro d hd e he hc
    have hd2 := ((mem_dupeList_iff names d).mp hd).1
    have he2 := ((mem_dupeList_iff names e).mp he).1
    exact h e he2 d hd2 1 (le_refl 1) (by rw [hc, suffixName_one])
  show renameAll (dupeList names) (assignedName names p) = _
  unfold assignedName
  by_cases hocc : occIdx names p = 1
  · rw [if_pos hocc]
    by_cases hcnt : names.count (names.getD p "") = 1
    · rw [if_pos hcnt]
      refine renameAll_of_not_mem _ _ (fun hc => ?_)
      have := ((mem_dupeList_iff names _).mp hc).2
      omega
    · rw [if_neg hcnt]
      have hcnt2 : 2 ≤ names.count (names.getD p "") := by
        have := List.count_pos_iff.mpr hgd
        omega
      rw [renameAll_of_mem (dupeList names) _ hni
        ((mem_dupeList_iff names _).mpr ⟨hgd, hcnt2⟩)]
      rw [hocc, suffixName_one]
  · rw [if_neg hocc]
    have hnotdupe : suffixName (names.getD p "") (occIdx names p) ∉ dupeList names := by
      intro hc
      have hmem := ((mem_dupeList_iff names _).mp hc).1
      exact h _ hmem _ hgd (occIdx names p) (by unfold occIdx; omega) rfl
    rw [renameAll_of_not_mem _ _ hnotdupe]
    have hcnt2 : ¬ names.count (names.getD p "") = 1 := by
      have hle := occIdx_le names p hp
      unfold occIdx at hocc hle
      omega
    rw [if_neg hcnt2]

/-- C2 witness: three default-named Source nodes (`inflow, inflow,
inflow`) satisfy the no-pre-suffixed-names hypothesis and come out as
`inflow_1, inflow_2, inflow_3` in construction order. -/
theorem format_node_names_spec_witness :
    format_node_names ["inflow", "inflow", "inflow"] =
        spec_rename ["inflow", "inflow", "inflow"] ∧
    spec_rename ["inflow", "inflow", "inflow"] = ["inflow_1", "inflow_2", "inflow_3"] := by
  constructor
  · apply format_node_names_spec
    intro a ha b hb k hk
    have ha2 : a = "inflow" := by
      simpa using ha
    have hb2 : b = "inflow" := by
      simpa using hb
    rw [ha2, hb2]
    exact self_ne_suffixName _ _
  · decide

/-- C1: `link_diagram` accepts the chain whose node names are
`x, x, x_1`, yet normalization produces `x_1, x_2, x_1` — the outlet and
the source end up with the same name, contradicting the claimed (and
documented: "Format node names so no duplicates exist") uniqueness of
normalized names. -/
theorem format_node_names_duplicate_after_link :
    link_diagram presuffixedDiagram = Except.ok () ∧
    format_node_names (diagram_names presuffixedDiagram) = ["x_1", "x_2", "x_1"] ∧
    ¬ (format_node_names (diagram_names presuffixedDiagram)).Nodup := by
  refine ⟨rfl, by decide, by decide⟩

/-- C2 counterexample: on original names `x_2, x, x` the code yields
`x_2, x_1, x_3` — the second occurrence of `x` becomes `x_3`, not the
claimed `x_2` (that name is already taken by an original). -/
theorem format_node_names_kth_occurrence_counterexample :
    format_node_names ["x_2", "x", "x"] ≠ spec_rename ["x_2", "x", "x"] ∧
    format_node_names ["x_2", "x", "x"] = ["x_2", "x_1", "x_3"] := by
  refine ⟨by decide, by decide⟩

theorem processNodes_append (g l : List DNode) (st : Nat × Nat × List (Nat × Nat)) :
    processNodes (g ++ l) st =
      match processNodes g st with
      | .error e => .error e
      | .ok st' => processNodes l st' := by
  induction g generalizing st with
  | nil => simp [processNodes]
  | cons nd g ih =>
    simp only [List.cons_append, processNodes]
    cases processNode st nd with
    | error e => rfl
    | ok st' => exact ih st'

theorem processElems_eq_processNodes (layer : Layer) :
    ∀ st, processElems layer st = processNodes (flatten_layer layer) st := by
  induction layer with
  | nil => intro st; rfl
  | cons e rest ih =>
    intro st
    cases e with
    | node nd =>
      simp only [processElems, flatten_layer, processNodes]
      cases processNode st nd with
      | error e => rfl
      | ok st' => exact ih st'
    | group g =>
      simp only [processElems, flatten_layer]
      rw [processNodes_append]
      cases processNodes g st with
      | error e => rfl
      | ok st' => exact ih st'

theorem processNode_eq (st : Nat × Nat × List (Nat × Nat)) (nd : DNode) :
    processNode st nd =
      if nd.tag = NTag.outlet then Except.error DiagErr.structural
      else Except.ok (st.1 + 1, st.2.1 + (if nd.tag = NTag.inflow then 1 else 0),
        st.2.2 ++ (if nd.tag = NTag.inflow then [] else [(st.1, st.1 - st.2.1)])) := by
  cases h : nd.tag <;> simp [processNode, h]

theorem inflowCount_cons (nd : DNode) (rest : List DNode) :
    inflowCount (nd :: rest) =
      inflowCount rest + (if nd.tag = NTag.inflow then 1 else 0) := by
  by_cases h : nd.tag = NTag.inflow <;> simp [inflowCount, List.countP_cons, h]

theorem inflowCount_cons_inflow {nd : DNode} (rest : List DNode)
    (h : nd.tag = NTag.inflow) : inflowCount (nd :: rest) = inflowCount rest + 1 := by
  simp [inflowCount_cons, h]

theorem inflowCount_cons_other {nd : DNode} (rest : List DNode)
    (h : nd.tag ≠ NTag.inflow) : inflowCount (nd :: rest) = inflowCount rest := by
  simp [inflowCount_cons, h]

theorem middle_cxns_from_cons (n i : Nat) (nd : DNode) (rest : List DNode) :
    middle_cxns_from n i (nd :: rest) =
      if nd.tag = NTag.inflow then middle_cxns_from (n + 1) (i + 1) rest
      else (n, n - i) :: middle_cxns_from (n + 1) i rest := by
  by_cases htag : nd.tag = NTag.inflow
  · rw [if_pos htag]
    unfold middle_cxns_from
    rw [List.length_cons, List.range_succ_eq_map, List.filterMap_cons, List.filterMap_map]
    have h0 : (if ((nd :: rest).getD 0 dfltNode).tag = NTag.inflow then none
        else some (n + 0, n + 0 - (i + inflowCount ((nd :: rest).take 0)))) =
        (none : Option (Nat × Nat)) := by
      simp [htag]
    rw [h0]
    have hfun : ((fun p =>
        if ((nd :: rest).getD p dfltNode).tag = NTag.inflow then none
        else some (n + p, n + p - (i + inflowCount ((nd :: rest).take p)))) ∘ Nat.succ) =
        (fun p => if (rest.getD p dfltNode).tag = NTag.inflow then none
          else some (n + 1 + p, n + 1 + p - (i + 1 + inflowCount (rest.take p)))) := by
      funext p
      simp only [Function.comp_apply, List.getD_cons_succ, List.take_succ_cons,
        inflowCount_cons_inflow _ htag]
      split
      · rfl
      · simp only [Option.some.injEq, Prod.mk.injEq]
        omega
    rw [hfun]
  · rw [if_neg htag]
    unfold middle_cxns_from
    rw [List.length_cons, List.range_succ_eq_map, List.filterMap_cons, List.filterMap_map]
    have h0 : (if ((nd :: rest).getD 0 dfltNode).tag = NTag.inflow then none
        else some (n + 0, n + 0 - (i + inflowCount ((nd :: rest).take 0)))) =
        some (n, n - i) := by
      simp [htag, inflowCount]
    rw [h0]
    have hfun : ((fun p =>
        if ((nd :: rest).getD p dfltNode).tag = NTag.inflow then none
        else some (n + p, n + p - (i + inflowCount ((nd :: rest).take p)))) ∘ Nat.succ) =
        (fun p => if (rest.getD p dfltNode).tag = NTag.inflow then none
          else some (n + 1 + p, n + 1 + p - (i + inflowCount (rest.take p)))) := by
      funext p
      simp only [Function.comp_apply, List.getD_cons_succ, List.take_succ_cons,
        inflowCount_cons_other _ htag]
      split
      · rfl
      · simp only [Option.some.injEq, Prod.mk.injEq]
        omega
    rw [hfun]

theorem processNodes_spec (nds : List DNode) :
    ∀ (n i : Nat) (cs : List (Nat × Nat)),
      processNodes nds (n, i, cs) =
        if ∃ nd ∈ nds, nd.tag = NTag.outlet then Except.error DiagErr.structural
        else Except.ok (n + nds.length, i + inflowCount nds, cs ++ middle_cxns_from n i nds) := by
  induction nds with
  | nil =>
    intro n i cs
    simp [processNodes, middle_cxns_from, inflowCount]
  | cons nd rest ih =>
    intro n i cs
    have hiff : (∃ x ∈ nd :: rest, x.tag = NTag.outlet) ↔
        (nd.tag = NTag.outlet ∨ ∃ x ∈ rest, x.tag = NTag.outlet) := by
      constructor
      · rintro ⟨x, hx, hout⟩
        rcases List.mem_cons.mp hx with rfl | hx'
        · exact Or.inl hout
        · exact Or.inr ⟨x, hx', hout⟩
      · rintro (h | ⟨x, hx, hout⟩)
        · exact ⟨nd, List.mem_cons_self nd rest, h⟩
        · exact ⟨x, List.mem_cons_of_mem _ hx, hout⟩
    simp only [processNodes, processNode_eq]
    by_cases hout : nd.tag = NTag.outlet
    · rw [if_pos hout]
      dsimp only
      rw [if_pos (hiff.mpr (Or.inl hout))]
    · rw [if_neg hout]
      dsimp only
      rw [ih]
      by_cases hex : ∃ x ∈ rest, x.tag = NTag.outlet
      · rw [if_pos hex, if_pos (hiff.mpr (Or.inr hex))]
      · rw [if_neg hex,
          if_neg (fun hc => (hiff.mp hc).elim (fun h => hout h) (fun h => hex h))]
        rw [middle_cxns_from_cons]
        by_cases hin : nd.tag = NTag.inflow
        · rw [if_pos hin, if_pos hin, if_pos hin]
          apply congrArg Except.ok
          rw [List.append_nil]
          simp only [Prod.mk.injEq, List.length_cons]
          refine ⟨by omega, ?_, trivial⟩
          rw [inflowCount_cons_inflow _ hin]
          omega
        · rw [if_neg hin, if_neg hin, if_neg hin]
          apply congrArg Except.ok
          simp only [Prod.mk.injEq, List.length_cons]
          refine ⟨by omega, ?_, ?_⟩
          · rw [inflowCount_cons_other _ hin]
            omega
          · rw [List.append_assoc]
            rfl

theorem middle_cxns_from_zero (nds : List DNode) : middle_cxns_from 0 0 nds = middle_cxns nds := by
  unfold middle_cxns middle_cxns_from
  congr 1
  funext p
  simp

/-- C3: `process_middle_layer` fails exactly when the (flattened) layer
contains an outlet node, and otherwise returns, left to right, one
connection `(n, n - i)` for every node that is not a Source, where `n`
is the node's flattened position and `i` the number of Source nodes
before it. -/
theorem process_middle_layer_spec (layer : Layer) :
    process_middle_layer layer =
      if ∃ nd ∈ flatten_layer layer, nd.tag = NTag.outlet then Except.error DiagErr.structural
      else Except.ok (middle_cxns (flatten_layer layer)) := by
  unfold process_middle_layer
  rw [processElems_eq_processNodes, processNodes_spec]
  by_cases hex : ∃ nd ∈ flatten_layer layer, nd.tag = NTag.outlet
  · rw [if_pos hex, if_pos hex]
  · rw [if_neg hex, if_neg hex, middle_cxns_from_zero]
    simp

/-- C4: `process_outlet_layer` succeeds exactly on a one-element layer
holding a single ungrouped outlet node, and then returns `[(0, 0)]`;
every other first layer (empty, several elements, wrong node variant, or
a grouped element) makes construction fail. -/
theorem process_outlet_layer_ok_iff (layer : Layer) (cs : List (Nat × Nat)) :
    process_outlet_layer layer = Except.ok cs ↔
      ∃ nd : DNode, layer = [Elem.node nd] ∧ nd.tag = NTag.outlet ∧ cs = [(0, 0)] := by
  constructor
  · intro h
    rcases layer with _ | ⟨e, _ | ⟨e2, rest⟩⟩
    · simp [process_outlet_layer] at h
    · rcases e with nd | g
      · by_cases htag : nd.tag = NTag.outlet
        · rw [process_outlet_layer, if_pos htag] at h
          refine ⟨nd, rfl, htag, ?_⟩
          exact (Except.ok.inj h).symm
        · rw [process_outlet_layer, if_neg htag] at h
          exact absurd h (by simp)
      · simp [process_outlet_layer] at h
    · simp [process_outlet_layer] at h
  · rintro ⟨nd, rfl, htag, rfl⟩
    rw [process_outlet_layer, if_pos htag]

/-- C5: three timesteps of the Sink←Accumulator←Source chain with data
`[1,1,0]`, capacity 1 and empty initial storage record outlet outflows
`0, 1, 0` and accumulator records `(1,1,(0,)), (1,1,(1,)), (0,1,(0,))`. -/
theorem simple_chain_simulation_trace :
    (runSteps 3 simpleChain).map
        (fun nd => (outflowColumn (nodeRecords nd), plHeadRecords (sendersOf nd))) =
      Except.ok ([Sum.inl 0, Sum.inl 1, Sum.inl 0],
        [[Sum.inl 1, Sum.inl 1, Sum.inr [0]],
         [Sum.inl 1, Sum.inl 1, Sum.inr [1]],
         [Sum.inl 0, Sum.inl 1, Sum.inr [0]]]) := by
  simp only [simpleChain, simpleStorage, simpleInflow]
  norm_num [runSteps, send, sendList, inflowNextCore, pyGet, relsSum, passiveResOp,
    outflowColumn, nodeRecords, sendersOf, plHeadRecords, Except.map, List.get?,
    min_def, max_def]

/-- C6: the passive policy returns the triple
`(inflow, new storage, (release,))` with
`release = max(0, storage + inflow - capacity)` as its only release and
stores `min(capacity, storage + inflow)` in place. -/
theorem passive_operation_spec (r : Res) (q : ℚ) :
    passive_operation r q =
      ((q, min r.capacity (r.storage + q), [max 0 (r.storage + q - r.capacity)]),
        ⟨min r.capacity (r.storage + q), r.capacity⟩) := rfl

/-- C7 counterexample: the label `b` matches no header string and is not
`outflow`/`inflow`, yet the lookup succeeds through the tuple-valued
header `('b',)` (returning each record's field at the label's position
inside that tuple). -/
theorem records_by_label_tuple_fallback_counterexample :
    records_by_label ⟨[Sum.inl "a", Sum.inr ["b"]], [[Sum.inl 1, Sum.inl 2]]⟩ "b" =
      Except.ok [Sum.inl 1] := by
  rfl

/-- C8 counterexample: two Source nodes agreeing on tag, name and policy
type but holding different data sequences compare unequal, against the
claimed tag/name/policy-type-only equality. -/
theorem inflow_eq_data_counterexample :
    nodeEq (PNode.inflow "inflow" [1] "Transfer" id (-1) false [])
        (PNode.inflow "inflow" [2] "Transfer" id (-1) false []) = false := by
  decide

theorem pyGet_ne_valueError {α : Type} (l : List α) (i : Int) :
    pyGet l i ≠ Except.error RunErr.valueError := by
  intro hc
  simp only [pyGet] at hc
  repeat' split at hc
  all_goals simp at hc

theorem mapRecords_ne_valueError (recs : List (List RVal)) (i : Int) :
    mapRecords recs i ≠ Except.error RunErr.valueError := by
  induction recs with
  | nil => simp [mapRecords]
  | cons r rest ih =>
    simp only [mapRecords]
    cases hg : pyGet r i with
    | error e =>
      have he := pyGet_ne_valueError r i
      rw [hg] at he
      simpa using he
    | ok v =>
      cases hm : mapRecords rest i with
      | error e' =>
        have he := ih
        rw [hm] at he
        simpa using he
      | ok vs => simp

theorem strIndexOf_eq_none_iff (hs : List Header) (label : String) :
    strIndexOf hs label = none ↔ ∀ h ∈ hs, h ≠ Sum.inl label := by
  induction hs with
  | nil => simp [strIndexOf]
  | cons h rest ih =>
    cases h with
    | inl s =>
      by_cases hsl : s = label
      · subst hsl
        simp only [strIndexOf, if_pos rfl]
        constructor
        · intro hc; cases hc
        · intro hall; exact absurd rfl (hall _ (List.mem_cons_self _ _))
      · simp [strIndexOf, hsl, ih, Sum.inl.injEq]
    | inr t => simp [strIndexOf, ih]

theorem tupleLookup_eq_none_iff (hs : List Header) (label : String) :
    tupleLookup hs label = none ↔ ∀ t : List String, Sum.inr t ∈ hs → label ∉ t := by
  induction hs with
  | nil => simp [tupleLookup]
  | cons h rest ih =>
    cases h with
    | inl s => simp [tupleLookup, ih]
    | inr tup =>
      by_cases hmem : label ∈ tup
      · simp only [tupleLookup, if_pos hmem]
        constructor
        · intro hc; cases hc
        · intro hall
          exact absurd hmem (hall tup (List.mem_cons_self _ _))
      · rw [tupleLookup, if_neg hmem, ih]
        constructor
        · intro h t ht
          rcases List.mem_cons.mp ht with heq | ht2
          · injection heq with heq2
            subst heq2
            exact hmem
          · exact h t ht2
        · intro h t ht
          exact h t (List.mem_cons_of_mem _ ht)

/-- C7: the lookup re-raises `ValueError` exactly when the label matches
no header string, is neither `outflow` nor `inflow`, and is contained in
no tuple-valued header.  (The tuple-header clause is the third fallback
the claim omits.) -/
theorem records_by_label_error_iff (L : Log) (label : String) :
    records_by_label L label = Except.error RunErr.valueError ↔
      ((∀ h ∈ L.headers, h ≠ Sum.inl label) ∧ label ≠ "outflow" ∧ label ≠ "inflow" ∧
        ∀ t : List String, Sum.inr t ∈ L.headers → label ∉ t) := by
  unfold records_by_label
  cases hsi : strIndexOf L.headers label with
  | some i =>
    constructor
    · intro hc; exact absurd hc (mapRecords_ne_valueError _ _)
    · rintro ⟨hall, -, -, -⟩
      have hnone : strIndexOf L.headers label = none := (strIndexOf_eq_none_iff _ _).mpr hall
      rw [hsi] at hnone; cases hnone
  | none =>
    by_cases ho : label = "outflow"
    · rw [if_pos ho]
      constructor
      · intro hc; exact absurd hc (mapRecords_ne_valueError _ _)
      · rintro ⟨-, hno, -, -⟩; exact absurd ho hno
    · rw [if_neg ho]
      by_cases hi : label = "inflow"
      · rw [if_pos hi]
        constructor
        · intro hc; exact absurd hc (mapRecords_ne_valueError _ _)
        · rintro ⟨-, -, hni, -⟩; exact absurd hi hni
      · rw [if_neg hi]
        cases htl : tupleLookup L.headers label with
        | some j =>
          constructor
          · intro hc; exact absurd hc (mapRecords_ne_valueError _ _)
          · rintro ⟨-, -, -, hall⟩
            have hnone : tupleLookup L.headers label = none :=
              (tupleLookup_eq_none_iff _ _).mpr hall
            rw [htl] at hnone; cases hnone
        | none =>
          constructor
          · intro _
            exact ⟨(strIndexOf_eq_none_iff _ _).mp hsi, ho, hi,
              (tupleLookup_eq_none_iff _ _).mp htl⟩
          · intro _; rfl

/-- C8: for each node variant, `__eq__` holds exactly when the static
`__key` tuples agree — for Source nodes that key includes the data
sequence, for Accumulator nodes the reservoir name and capacity — while
mutable runtime state (cursor, loop flag, stored volume, senders, logs)
and the operation closures themselves never affect equality. -/
theorem node_eq_iff_static_key :
    (∀ (n₁ n₂ o₁ o₂ : String) (d₁ d₂ : List ℚ) (tf₁ tf₂ : ℚ → ℚ) (t₁ t₂ : Int)
        (b₁ b₂ : Bool) (g₁ g₂ : List (List RVal)),
      nodeEq (PNode.inflow n₁ d₁ o₁ tf₁ t₁ b₁ g₁) (PNode.inflow n₂ d₂ o₂ tf₂ t₂ b₂ g₂) = true ↔
        n₁ = n₂ ∧ d₁ = d₂ ∧ o₁ = o₂) ∧
    (∀ (n₁ n₂ r₁ r₂ o₁ o₂ : String) (c₁ c₂ s₁ s₂ : ℚ)
        (rop₁ rop₂ : ℚ → ℚ → ℚ → List ℚ × ℚ) (sd₁ sd₂ : PNodeList)
        (g₁ g₂ : List (List RVal)),
      nodeEq (PNode.storage n₁ r₁ c₁ s₁ o₁ rop₁ sd₁ g₁)
          (PNode.storage n₂ r₂ c₂ s₂ o₂ rop₂ sd₂ g₂) = true ↔
        n₁ = n₂ ∧ r₁ = r₂ ∧ c₁ = c₂ ∧ o₁ = o₂) ∧
    (∀ (n₁ n₂ o₁ o₂ : String) (tf₁ tf₂ : ℚ → ℚ) (sd₁ sd₂ : PNodeList)
        (g₁ g₂ : List (List RVal)),
      nodeEq (PNode.outlet n₁ o₁ tf₁ sd₁ g₁) (PNode.outlet n₂ o₂ tf₂ sd₂ g₂) = true ↔
        n₁ = n₂ ∧ o₁ = o₂) := by
  refine ⟨?_, ?_, ?_⟩ <;> intros <;> simp [nodeEq]

/-- C9: a Source with an empty backing sequence and loop disabled raises
`StopIteration` on its very first `receive()`. -/
theorem empty_inflow_receive_raises (nm ops : String) (tf : ℚ → ℚ)
    (lg : List (List RVal)) :
    receiveNode (PNode.inflow nm [] ops tf (-1) false lg) =
      Except.error RunErr.stopIteration := rfl

/-- C10: adding two nodes that compare equal to an empty sender set
leaves a single stored sender (the first object), so a subsequent
`receive` sums the `send` of that one node only. -/
theorem add_sender_collapses_equal_nodes (a b : PNode) (h : nodeEq a b = true) :
    add_sender (add_sender PNodeList.nil a) b = PNodeList.cons a PNodeList.nil ∧
    sendList (add_sender (add_sender PNodeList.nil a) b) =
      (send a).map (fun p => (p.1, PNodeList.cons p.2 PNodeList.nil)) := by
  have h1 : add_sender PNodeList.nil a = PNodeList.cons a PNodeList.nil := rfl
  have h2 : add_sender (PNodeList.cons a PNodeList.nil) b = PNodeList.cons a PNodeList.nil := by
    unfold add_sender
    have hc : plContains (PNodeList.cons a PNodeList.nil) b = true := by
      simp [plContains, h]
    rw [hc]
    simp
  refine ⟨by rw [h1, h2], ?_⟩
  rw [h1, h2]
  cases hs : send a with
  | error e => simp [sendList, hs, Except.map]
  | ok p =>
    obtain ⟨v, a'⟩ := p
    simp [sendList, hs, Except.map]

/-- C10 witness: two equal-keyed Source objects differing in cursor
state collapse to one sender. -/
theorem add_sender_collapses_equal_nodes_witness :
    add_sender (add_sender PNodeList.nil
          (PNode.inflow "inflow" [1] "Transfer" id (-1) false []))
        (PNode.inflow "inflow" [1] "Transfer" id 0 false []) =
      PNodeList.cons (PNode.inflow "inflow" [1] "Transfer" id (-1) false [])
        PNodeList.nil ∧
    sendList (add_sender (add_sender PNodeList.nil
          (PNode.inflow "inflow" [1] "Transfer" id (-1) false []))
        (PNode.inflow "inflow" [1] "Transfer" id 0 false [])) =
      (send (PNode.inflow "inflow" [1] "Transfer" id (-1) false [])).map
        (fun p => (p.1, PNodeList.cons p.2 PNodeList.nil)) :=
  add_sender_collapses_equal_nodes _ _ (by decide)

end Lattice
